import Mathlib

/-!
Verification of the pepper editor kernel against its specification.

Each section shallowly embeds one subsystem of the source tree:
bytes are `Nat` (values `< 256`), strings are `List Char`, machine
integers are `Nat` with explicit bounds, and fallible operations
return `Except`.  Definitions follow the Rust source function by
function; definitions whose Rust source file is not part of the
provided tree are marked as modelled from the specification text.
-/

deriving instance DecidableEq for Except

namespace Pepper

/-! ## Serialization (src/pepper/src/serialization.rs)

Bytes are `Nat`s; a serializer is modelled by the list of bytes it has
written, a deserializer by the list of bytes remaining.
-/

inductive DeserializeError where
  | insufficientData
  | invalidData
  deriving DecidableEq, Repr

/-- Embedding of the impl of Deserializer for byte slices: take the next
wanted bytes off the front when available, else fail with
insufficientData leaving the input as it was (split_at mirrored as
take/drop). -/
def readBytes (input : List Nat) (len : Nat) :
    Except DeserializeError (List Nat × List Nat) :=
  if len ≤ input.length then
    .ok (input.take len, input.drop len)
  else
    .error .insufficientData

/-- Little-endian byte rendering of a value at a fixed width, mirroring
to_le_bytes on uN values. -/
def toLeBytes : Nat → Nat → List Nat
  | 0, _ => []
  | w + 1, v => (v % 256) :: toLeBytes w (v / 256)

/-- Little-endian value of a byte list, mirroring from_le_bytes. -/
def leValue : List Nat → Nat
  | [] => 0
  | b :: t => b + 256 * leValue t

def u8Serialize (v : Nat) : List Nat := toLeBytes 1 v

def u8Deserialize (input : List Nat) :
    Except DeserializeError (Nat × List Nat) :=
  match readBytes input 1 with
  | .ok (bytes, rest) => .ok (leValue bytes, rest)
  | .error e => .error e

def u16Serialize (v : Nat) : List Nat := toLeBytes 2 v

def u16Deserialize (input : List Nat) :
    Except DeserializeError (Nat × List Nat) :=
  match readBytes input 2 with
  | .ok (bytes, rest) => .ok (leValue bytes, rest)
  | .error e => .error e

def u32Serialize (v : Nat) : List Nat := toLeBytes 4 v

def u32Deserialize (input : List Nat) :
    Except DeserializeError (Nat × List Nat) :=
  match readBytes input 4 with
  | .ok (bytes, rest) => .ok (leValue bytes, rest)
  | .error e => .error e

/-- Validity of a unicode scalar value, mirroring the success domain of
char::try_from(u32): below the surrogate range or between the
surrogates and the maximum code point. -/
def isValidCharCode (n : Nat) : Bool :=
  n < 0xD800 || (0xE000 ≤ n && n < 0x110000)

/-- Embedding of Serialize for char: the scalar value serialized as u32. -/
def charSerialize (c : Nat) : List Nat := u32Serialize c

/-- Embedding of Deserialize for char: read a u32 and convert, failing
with invalidData outside the scalar-value range. -/
def charDeserialize (input : List Nat) :
    Except DeserializeError (Nat × List Nat) :=
  match u32Deserialize input with
  | .ok (v, rest) =>
      if isValidCharCode v then .ok (v, rest) else .error .invalidData
  | .error e => .error e

/-- Embedding of Serialize for byte slices: u32 length then the bytes. -/
def bytesSerialize (bs : List Nat) : List Nat :=
  u32Serialize bs.length ++ bs

def bytesDeserialize (input : List Nat) :
    Except DeserializeError (List Nat × List Nat) :=
  match u32Deserialize input with
  | .ok (len, rest) => readBytes rest len
  | .error e => .error e

/-- Continuation byte test for UTF-8 validation. -/
def isUtf8Cont (b : Nat) : Bool := 0x80 ≤ b && b < 0xC0

/-- Strict UTF-8 validity of a byte list, mirroring the success domain
of str::from_utf8: rejects overlong forms, surrogates and code points
above the maximum. -/
def validUtf8 : List Nat → Bool
  | [] => true
  | b :: t =>
    if b < 0x80 then validUtf8 t
    else if b < 0xC2 then false
    else if b < 0xE0 then
      match t with
      | c1 :: t1 => isUtf8Cont c1 && validUtf8 t1
      | _ => false
    else if b < 0xF0 then
      match t with
      | c1 :: c2 :: t2 =>
        (if b = 0xE0 then 0xA0 ≤ c1 && c1 < 0xC0
         else if b = 0xED then 0x80 ≤ c1 && c1 < 0xA0
         else isUtf8Cont c1) && isUtf8Cont c2 && validUtf8 t2
      | _ => false
    else if b < 0xF5 then
      match t with
      | c1 :: c2 :: c3 :: t3 =>
        (if b = 0xF0 then 0x90 ≤ c1 && c1 < 0xC0
         else if b = 0xF4 then 0x80 ≤ c1 && c1 < 0x90
         else isUtf8Cont c1) && isUtf8Cont c2 && isUtf8Cont c3 && validUtf8 t3
      | _ => false
    else false

/-- Embedding of Serialize for str: the UTF-8 bytes as a byte slice. -/
def strSerialize (s : List Nat) : List Nat := bytesSerialize s

/-- Embedding of Deserialize for str: a byte slice checked for UTF-8
validity, failing with invalidData otherwise. -/
def strDeserialize (input : List Nat) :
    Except DeserializeError (List Nat × List Nat) :=
  match bytesDeserialize input with
  | .ok (bs, rest) =>
      if validUtf8 bs then .ok (bs, rest) else .error .invalidData
  | .error e => .error e

theorem toLeBytes_length (w v : Nat) : (toLeBytes w v).length = w := by
  induction w generalizing v with
  | zero => rfl
  | succ w ih => simp [toLeBytes, ih]

theorem leValue_toLeBytes (w v : Nat) (h : v < 256 ^ w) :
    leValue (toLeBytes w v) = v := by
  induction w generalizing v with
  | zero =>
    interval_cases v
    rfl
  | succ w ih =>
    have hdiv : v / 256 < 256 ^ w := by
      rw [Nat.div_lt_iff_lt_mul (by norm_num)]
      calc v < 256 ^ (w + 1) := h
        _ = 256 ^ w * 256 := by ring
    simp [toLeBytes, leValue, ih _ hdiv]
    omega

theorem readBytes_exact (xs rest : List Nat) :
    readBytes (xs ++ rest) xs.length = .ok (xs, rest) := by
  simp [readBytes]

theorem readBytes_toLeBytes (w v : Nat) (rest : List Nat) :
    readBytes (toLeBytes w v ++ rest) w = .ok (toLeBytes w v, rest) := by
  have h := readBytes_exact (toLeBytes w v) rest
  rwa [toLeBytes_length] at h

theorem u8_roundtrip (v : Nat) (rest : List Nat) (h : v < 256) :
    u8Deserialize (u8Serialize v ++ rest) = .ok (v, rest) := by
  simp [u8Deserialize, u8Serialize, readBytes_toLeBytes,
    leValue_toLeBytes 1 v (by simpa using h)]

theorem u16_roundtrip (v : Nat) (rest : List Nat) (h : v < 2 ^ 16) :
    u16Deserialize (u16Serialize v ++ rest) = .ok (v, rest) := by
  simp [u16Deserialize, u16Serialize, readBytes_toLeBytes,
    leValue_toLeBytes 2 v (by simpa using h)]

theorem u32_roundtrip (v : Nat) (rest : List Nat) (h : v < 2 ^ 32) :
    u32Deserialize (u32Serialize v ++ rest) = .ok (v, rest) := by
  simp [u32Deserialize, u32Serialize, readBytes_toLeBytes,
    leValue_toLeBytes 4 v (by simpa using h)]

theorem char_roundtrip (c : Nat) (rest : List Nat)
    (h : isValidCharCode c = true) :
    charDeserialize (charSerialize c ++ rest) = .ok (c, rest) := by
  have hlt : c < 2 ^ 32 := by
    simp only [isValidCharCode, Bool.or_eq_true, decide_eq_true_eq,
      Bool.and_eq_true] at h
    omega
  simp [charDeserialize, charSerialize, u32_roundtrip c rest hlt, h]

theorem bytes_roundtrip (bs rest : List Nat) (h : bs.length < 2 ^ 32) :
    bytesDeserialize (bytesSerialize bs ++ rest) = .ok (bs, rest) := by
  simp only [bytesDeserialize, bytesSerialize, List.append_assoc,
    u32_roundtrip bs.length (bs ++ rest) h]
  exact readBytes_exact bs rest

theorem str_roundtrip (s rest : List Nat) (hlen : s.length < 2 ^ 32)
    (hutf : validUtf8 s = true) :
    strDeserialize (strSerialize s ++ rest) = .ok (s, rest) := by
  simp [strDeserialize, strSerialize, bytes_roundtrip s rest hlen, hutf]

/-- C2: serializing any wire-primitive value (u8, u16, u32, char as its
u32 scalar value, byte slice, str) and deserializing from the produced
bytes yields the original value and consumes exactly the written bytes,
for every continuation of the stream; integers are little-endian and
slices and strings carry a u32 length followed by the raw bytes. -/
theorem serialization_roundtrip :
    (∀ v rest, v < 256 →
      u8Deserialize (u8Serialize v ++ rest) = .ok (v, rest)) ∧
    (∀ v rest, v < 2 ^ 16 →
      u16Deserialize (u16Serialize v ++ rest) = .ok (v, rest)) ∧
    (∀ v rest, v < 2 ^ 32 →
      u32Deserialize (u32Serialize v ++ rest) = .ok (v, rest)) ∧
    (∀ c rest, isValidCharCode c = true →
      charDeserialize (charSerialize c ++ rest) = .ok (c, rest)) ∧
    (∀ bs rest, bs.length < 2 ^ 32 →
      bytesDeserialize (bytesSerialize bs ++ rest) = .ok (bs, rest)) ∧
    (∀ s rest, s.length < 2 ^ 32 → validUtf8 s = true →
      strDeserialize (strSerialize s ++ rest) = .ok (s, rest)) :=
  ⟨u8_roundtrip, u16_roundtrip, u32_roundtrip, char_roundtrip,
    bytes_roundtrip, str_roundtrip⟩

/-- Witness for C2 at concrete inputs: value 5 as u8, 700 as u16, 70000
as u32, the scalar value of a lambda as char, a two-byte slice and the
UTF-8 bytes of a short string, each followed by a trailing byte 9. -/
theorem serialization_roundtrip_witness :
    u8Deserialize (u8Serialize 5 ++ [9]) = .ok (5, [9]) ∧
    u16Deserialize (u16Serialize 700 ++ [9]) = .ok (700, [9]) ∧
    u32Deserialize (u32Serialize 70000 ++ [9]) = .ok (70000, [9]) ∧
    charDeserialize (charSerialize 955 ++ [9]) = .ok (955, [9]) ∧
    bytesDeserialize (bytesSerialize [255, 0] ++ [9]) = .ok ([255, 0], [9]) ∧
    strDeserialize (strSerialize [104, 105] ++ [9]) = .ok ([104, 105], [9]) :=
  ⟨serialization_roundtrip.1 5 [9] (by decide),
    serialization_roundtrip.2.1 700 [9] (by decide),
    serialization_roundtrip.2.2.1 70000 [9] (by decide),
    serialization_roundtrip.2.2.2.1 955 [9] (by decide),
    serialization_roundtrip.2.2.2.2.1 [255, 0] [9] (by decide),
    serialization_roundtrip.2.2.2.2.2 [104, 105] [9] (by decide) (by decide)⟩

/-- C10: reading len bytes from a byte-slice deserializer succeeds
exactly when len bytes remain; on success it returns exactly the next
len bytes and advances the input past them, and on failure it reports
InsufficientData and the remaining input is untouched. -/
theorem readBytes_atomic (input : List Nat) (len : Nat) :
    (len ≤ input.length →
      readBytes input len = .ok (input.take len, input.drop len) ∧
      (input.take len).length = len ∧
      input.take len ++ input.drop len = input) ∧
    (input.length < len →
      readBytes input len = .error .insufficientData) := by
  constructor
  · intro h
    refine ⟨?_, ?_, ?_⟩
    · simp [readBytes, h]
    · simp [h]
    · exact List.take_append_drop len input
  · intro h
    simp [readBytes, Nat.not_le.mpr h, Nat.not_le_of_lt h]

/-- Witness for C10 on a concrete three-byte input: a two-byte read
succeeds with the exact bytes, and a four-byte read fails. -/
theorem readBytes_atomic_witness :
    readBytes [1, 2, 3] 2 = .ok ([1, 2], [3]) ∧
    readBytes [1, 2, 3] 4 = .error .insufficientData :=
  ⟨((readBytes_atomic [1, 2, 3] 2).1 (by decide)).1,
    (readBytes_atomic [1, 2, 3] 4).2 (by decide)⟩

/-! ## Command history (src/pepper/src/command.rs, CommandManager)

The history ring is a VecDeque of strings created with capacity
HISTORY_CAPACITY; it is modelled as a list with the front at the head.
Reusing the popped String and refilling it is semantically dropping the
front and appending the entry.
-/

def HISTORY_CAPACITY : Nat := 10

/-- Test mirroring char::is_ascii_whitespace: space, horizontal tab,
line feed, form feed, carriage return. -/
def isAsciiWhitespace (c : Char) : Bool :=
  c = ' ' || c = '\t' || c = '\n' || c = '\x0C' || c = '\r'

def startsWithAsciiWhitespace : List Char → Bool
  | [] => false
  | c :: _ => isAsciiWhitespace c

/-- Embedding of CommandManager::add_to_history: drop empty or
whitespace-led entries, drop duplicates of the last entry, and when the
ring is at capacity pop the oldest entry before appending. -/
def addToHistory (history : List (List Char)) (entry : List Char) :
    List (List Char) :=
  if entry = [] || startsWithAsciiWhitespace entry then history
  else if history.getLast? = some entry then history
  else if history.length = HISTORY_CAPACITY then history.tail ++ [entry]
  else history ++ [entry]

theorem addToHistory_length_le (history : List (List Char))
    (entry : List Char) (h : history.length ≤ HISTORY_CAPACITY) :
    (addToHistory history entry).length ≤ HISTORY_CAPACITY := by
  unfold addToHistory
  split
  · exact h
  · split
    · exact h
    · split
      · rename_i hfull
        simp [List.length_tail, hfull, HISTORY_CAPACITY]
      · rename_i hfull
        simp only [List.length_append, List.length_cons, List.length_nil]
        omega

theorem foldl_addToHistory_length (es : List (List Char)) :
    (es.foldl addToHistory []).length ≤ HISTORY_CAPACITY := by
  suffices h : ∀ hist : List (List Char), hist.length ≤ HISTORY_CAPACITY →
      (es.foldl addToHistory hist).length ≤ HISTORY_CAPACITY by
    exact h [] (by simp [HISTORY_CAPACITY])
  induction es with
  | nil => intro hist hh; simpa using hh
  | cons e rest ih =>
    intro hist hh
    exact ih _ (addToHistory_length_le hist e hh)

/-- C8: starting from the empty history, any sequence of add_to_history
calls leaves at most 10 entries; when the ring is full an accepted entry
evicts the oldest one; and an entry equal to the last entry or beginning
with an ascii whitespace character leaves the history unchanged. -/
theorem command_history_ring :
    (∀ es : List (List Char),
      (es.foldl addToHistory []).length ≤ HISTORY_CAPACITY) ∧
    (∀ history entry, history.length = HISTORY_CAPACITY →
      ¬entry = [] → startsWithAsciiWhitespace entry = false →
      history.getLast? ≠ some entry →
      addToHistory history entry = history.tail ++ [entry]) ∧
    (∀ history entry, history.getLast? = some entry →
      addToHistory history entry = history) ∧
    (∀ history entry, startsWithAsciiWhitespace entry = true →
      addToHistory history entry = history) := by
  refine ⟨foldl_addToHistory_length, ?_, ?_, ?_⟩
  · intro history entry hfull hne hws hlast
    simp [addToHistory, hne, hws, hlast, hfull]
  · intro history entry hlast
    simp [addToHistory, hlast]
  · intro history entry hws
    simp [addToHistory, hws]

/-- Witness for C8: eleven distinct single-character entries leave ten
entries with the first one evicted, a duplicate of the last entry is
dropped, and an entry beginning with a space is dropped. -/
theorem command_history_ring_witness :
    ([['0'], ['1'], ['2'], ['3'], ['4'], ['5'], ['6'], ['7'], ['8'], ['9'],
      ['a']].foldl addToHistory []).length ≤ HISTORY_CAPACITY ∧
    addToHistory [['0'], ['1'], ['2'], ['3'], ['4'], ['5'], ['6'], ['7'],
      ['8'], ['9']] ['a'] =
      [['1'], ['2'], ['3'], ['4'], ['5'], ['6'], ['7'], ['8'], ['9'], ['a']] ∧
    addToHistory [['b'], ['c']] ['c'] = [['b'], ['c']] ∧
    addToHistory [['b'], ['c']] [' ', 'x'] = [['b'], ['c']] :=
  ⟨command_history_ring.1 _,
    command_history_ring.2.1 _ ['a'] (by decide) (by decide) (by decide)
      (by decide),
    command_history_ring.2.2.1 [['b'], ['c']] ['c'] (by decide),
    command_history_ring.2.2.2 [['b'], ['c']] [' ', 'x'] (by decide)⟩

/-! ## Buffer positions, content and multi-cursor insertion

Positions and ranges follow the data model; buffer content is the
ordered list of lines without their line feeds.  The BufferView
operations come from src/pepper/src/buffer_view.rs; the content
insertion itself and the per-cursor position translation live in
source files that are not part of the provided tree and are modelled
from the specification text.
-/

structure BufferPosition where
  lineIndex : Nat
  columnByteIndex : Nat
  deriving DecidableEq, Repr

structure BufferRange where
  fromPos : BufferPosition
  toPos : BufferPosition
  deriving DecidableEq, Repr

def posLt (a b : BufferPosition) : Bool :=
  a.lineIndex < b.lineIndex ||
    (a.lineIndex = b.lineIndex && a.columnByteIndex < b.columnByteIndex)

def posLe (a b : BufferPosition) : Bool := posLt a b || a = b

def posMin (a b : BufferPosition) : BufferPosition := if posLe a b then a else b

def posMax (a b : BufferPosition) : BufferPosition := if posLe a b then b else a

/-- Modelled from the spec: per-position update across one insert
(section 4.3, buffer_position.rs is missing from the tree): an insert at
range r shifts every position at or after r.from by the length of r,
adjusting the column only on r.from's own line. -/
def positionInsert (p : BufferPosition) (r : BufferRange) : BufferPosition :=
  if posLt p r.fromPos then p
  else if p.lineIndex = r.fromPos.lineIndex then
    ⟨r.toPos.lineIndex,
      r.toPos.columnByteIndex + (p.columnByteIndex - r.fromPos.columnByteIndex)⟩
  else
    ⟨p.lineIndex + (r.toPos.lineIndex - r.fromPos.lineIndex),
      p.columnByteIndex⟩

structure Cursor where
  anchor : BufferPosition
  position : BufferPosition
  deriving DecidableEq, Repr

/-- Modelled from the spec: Cursor::insert applies the insert update to
both ends of the cursor (section 4.3, cursor.rs is missing from the
tree). -/
def cursorInsert (c : Cursor) (r : BufferRange) : Cursor :=
  ⟨positionInsert c.anchor r, positionInsert c.position r⟩

/-- Lines of a text split at line feeds; empty pieces are kept, so the
result is never empty. -/
def splitLines : List Char → List (List Char)
  | [] => [[]]
  | c :: t =>
    if c = '\n' then [] :: splitLines t
    else
      match splitLines t with
      | h :: r => (c :: h) :: r
      | [] => [[c]]

/-- Modelled from the spec: BufferContent::insert_text (section 4.1,
buffer.rs is missing from the tree).  The first piece of the text is
spliced into the target line at the column, middle pieces become new
lines, and the trailing piece takes the suffix of the target line; the
returned range spans the inserted text in post-insert coordinates. -/
def insertText (lines : List (List Char)) (pos : BufferPosition)
    (text : List Char) : List (List Char) × BufferRange :=
  let line := lines.getD pos.lineIndex []
  let before := line.take pos.columnByteIndex
  let after := line.drop pos.columnByteIndex
  match splitLines text with
  | [] => (lines, ⟨pos, pos⟩)
  | [piece] =>
      (lines.set pos.lineIndex (before ++ piece ++ after),
        ⟨pos, ⟨pos.lineIndex, pos.columnByteIndex + piece.length⟩⟩)
  | first :: rest =>
      let last := rest.getLastD []
      (lines.take pos.lineIndex ++ [before ++ first] ++ rest.dropLast ++
          [last ++ after] ++ lines.drop (pos.lineIndex + 1),
        ⟨pos, ⟨pos.lineIndex + rest.length, last.length⟩⟩)

/-- Embedding of BufferView::insert_text_at_cursor_positions: the same
text is inserted at every cursor position, iterating the cursors in
reverse order; the emitted text-insert events are returned in emission
order. -/
def insertTextAtCursorPositions (lines : List (List Char))
    (cursors : List Cursor) (text : List Char) :
    List (List Char) × List BufferRange :=
  cursors.reverse.foldl
    (fun acc c =>
      let step := insertText acc.1 c.position text
      (step.1, acc.2 ++ [step.2]))
    (lines, [])

def insertSortedCursor (c : Cursor) : List Cursor → List Cursor
  | [] => [c]
  | d :: t =>
    if posLe (posMin c.anchor c.position) (posMin d.anchor d.position) then
      c :: d :: t
    else
      d :: insertSortedCursor c t

def sortCursors (cs : List Cursor) : List Cursor :=
  cs.foldr insertSortedCursor []

def cursorsOverlap (a b : Cursor) : Bool :=
  posLe (posMin b.anchor b.position) (posMax a.anchor a.position)

/-- Merge of one cursor into the already-merged cursors to its right. -/
def mergeStep (a : Cursor) (acc : List Cursor) : List Cursor :=
  match acc with
  | [] => [a]
  | b :: t =>
    if cursorsOverlap a b then
      ⟨posMin a.anchor b.anchor, posMax a.position b.position⟩ :: t
    else
      a :: b :: t

/-- Modelled from the spec: the cursor collection mut-guard finalization
(section 4.3, cursor.rs is missing from the tree): sort by range start,
then merge overlapping cursors keeping the earlier anchor and the later
position. -/
def mergeCursors (cs : List Cursor) : List Cursor :=
  cs.foldr mergeStep []

def finalizeCursors (cs : List Cursor) : List Cursor :=
  mergeCursors (sortCursors cs)

/-- Embedding of BufferViewCollection::on_buffer_text_inserts for one
view: every emitted insert range updates every cursor, then the
mut-guard finalization runs. -/
def onBufferTextInserts (cursors : List Cursor)
    (inserts : List BufferRange) : List Cursor :=
  finalizeCursors
    (inserts.foldl (fun cs r => cs.map (fun c => cursorInsert c r)) cursors)

/-- C1: on the buffer with lines a and b and cursors at positions (0,0)
and (1,0), inserting the text X applies the edits in reverse document
order (the event for line 1 is emitted before the event for line 0),
produces lines Xa and Xb, and the reconciled cursors sit at (0,1) and
(1,1). -/
theorem multi_cursor_insert :
    insertTextAtCursorPositions [['a'], ['b']]
        [⟨⟨0, 0⟩, ⟨0, 0⟩⟩, ⟨⟨1, 0⟩, ⟨1, 0⟩⟩] ['X'] =
      ([['X', 'a'], ['X', 'b']],
        [⟨⟨1, 0⟩, ⟨1, 1⟩⟩, ⟨⟨0, 0⟩, ⟨0, 1⟩⟩]) ∧
    onBufferTextInserts [⟨⟨0, 0⟩, ⟨0, 0⟩⟩, ⟨⟨1, 0⟩, ⟨1, 0⟩⟩]
        [⟨⟨1, 0⟩, ⟨1, 1⟩⟩, ⟨⟨0, 0⟩, ⟨0, 1⟩⟩] =
      [⟨⟨0, 1⟩, ⟨0, 1⟩⟩, ⟨⟨1, 1⟩, ⟨1, 1⟩⟩] := by
  decide

/-! ## Command tokenizer (src/pepper/src/command.rs, CommandTokenizer)

Texts are lists of characters and token slices carry their start offset
within the tokenized text (the Rust code carries the same information
through slice pointers).
-/

def isCmdWs (c : Char) : Bool := c = ' ' || c = '\t' || c = '\r' || c = '\n'

def countLeadingWs : List Char → Nat
  | [] => 0
  | c :: t => if isCmdWs c then countLeadingWs t + 1 else 0

def countLeadingAt : List Char → Nat
  | [] => 0
  | c :: t => if c = '@' then countLeadingAt t + 1 else 0

/-- Index of the first whitespace character, or the length when there is
none, mirroring next_literal_end. -/
def nextLiteralEnd : List Char → Nat
  | [] => 0
  | c :: t => if isCmdWs c then 0 else nextLiteralEnd t + 1

/-- First position holding the delimiter or a line feed, with a flag
telling which one was found, mirroring find on a two-char pattern. -/
def findDelimOrNl (d : Char) : List Char → Option (Nat × Bool)
  | [] => none
  | c :: t =>
    if c = d then some (0, true)
    else if c = '\n' then some (0, false)
    else
      match findDelimOrNl d t with
      | some (i, isDelim) => some (i + 1, isDelim)
      | none => none

/-- Opening phase of parse_balanced_command_token: a run of equals signs
followed by an opening brace; returns the depth and the consumed
length. -/
def balancedOpen : List Char → Option (Nat × Nat)
  | [] => none
  | c :: t =>
    if c = '=' then
      match balancedOpen t with
      | some (d, l) => some (d + 1, l + 1)
      | none => none
    else if c = '{' then some (0, 1)
    else none

/-- Closing-scan phase of parse_balanced_command_token: the state machine
over (ending, matched, endPos) that stops at a closing brace seen while
ending with exactly depth equals signs matched; returns the token end
position and the position after the closing brace. -/
def balancedClose (depth : Nat) : List Char → Bool → Nat → Nat → Nat → Option (Nat × Nat)
  | [], _, _, _, _ => none
  | c :: t, ending, matched, endPos, idx =>
    if c = '}' then
      if ending ∧ matched = depth then some (endPos, idx + 1)
      else balancedClose depth t true 0 idx (idx + 1)
    else if c = '=' then balancedClose depth t ending (matched + 1) endPos (idx + 1)
    else balancedClose depth t false matched endPos (idx + 1)

/-- Embedding of parse_balanced_command_token on the text after the
first opening brace: the token slice, its start offset and the offset
after the closing bracket. -/
def parseBalancedCommandToken (s : List Char) : Option (List Char × Nat × Nat) :=
  match balancedOpen s with
  | none => none
  | some (depth, openLen) =>
    match balancedClose depth (s.drop openLen) false 0 0 0 with
    | none => none
    | some (endPos, restIdx) =>
      some ((s.drop openLen).take endPos, openLen, openLen + restIdx)

structure CommandToken where
  canExpandVariables : Bool
  slice : List Char
  start : Nat
  deriving DecidableEq, Repr

/-- Embedding of the CommandTokenizer Iterator: the position pos is the
offset already consumed of the text; a leading run of at-signs disables
expansion for a following quoted or bracketed token and is otherwise
part of a plain literal token. -/
def tokenizerNext (text : List Char) (pos : Nat) : Option (CommandToken × Nat) :=
  let pos1 := pos + countLeadingWs (text.drop pos)
  let s := text.drop pos1
  let k := countLeadingAt s
  match s.drop k with
  | [] => none
  | c :: rest =>
    if c = '"' || c = '\'' then
      match findDelimOrNl c rest with
      | some (i, true) =>
        some (⟨decide (k = 0), rest.take i, pos1 + k + 1⟩, pos1 + k + 1 + i + 1)
      | _ =>
        let e := nextLiteralEnd rest
        some (⟨decide (k = 0), (s.drop k).take (e + 1), pos1 + k⟩,
          pos1 + k + e + 1)
    else
      match (if c = '{' then parseBalancedCommandToken rest else none) with
      | some (slice, startRel, restRel) =>
        some (⟨decide (k = 0), slice, pos1 + k + 1 + startRel⟩,
          pos1 + k + 1 + restRel)
      | none =>
        let e := nextLiteralEnd s
        some (⟨true, s.take e, pos1⟩, pos1 + e)

def tokenizeLoop (text : List Char) : Nat → Nat → List CommandToken
  | 0, _ => []
  | fuel + 1, pos =>
    match tokenizerNext text pos with
    | none => []
    | some (tok, pos2) => tok :: tokenizeLoop text fuel pos2

/-- Token stream of a whole text; every token consumes at least one
character, so a fuel of one more than the length is never exhausted. -/
def tokenize (text : List Char) : List CommandToken :=
  tokenizeLoop text (text.length + 1) 0

/-- Closing bracket sequence at a given depth: a closing brace, the
equals signs, and the final closing brace. -/
def closeTerm (k : Nat) : List Char := '}' :: (List.replicate k '=' ++ ['}'])

/-- Search for the first occurrence of the closing bracket sequence,
the specification the closing-scan state machine is proved against. -/
def findClose (depth : Nat) : List Char → Nat → Option (Nat × Nat)
  | [], _ => none
  | c :: t, idx =>
    if (closeTerm depth).isPrefixOf (c :: t) then some (idx, idx + depth + 2)
    else findClose depth t (idx + 1)

theorem isPrefixOf_append_self {α : Type} [BEq α] [LawfulBEq α]
    (l t : List α) : l.isPrefixOf (l ++ t) = true := by
  induction l with
  | nil => simp [List.isPrefixOf]
  | cons c r ih => simp [List.isPrefixOf, ih]

theorem closeTail_ne_depth (d m : Nat) (t : List Char) (h : m ≠ d) :
    (List.replicate d '=' ++ ['}']).isPrefixOf
      (List.replicate m '=' ++ '}' :: t) = false := by
  induction d generalizing m with
  | zero =>
    cases m with
    | zero => omega
    | succ m => simp [List.isPrefixOf, List.replicate_succ]
  | succ d ih =>
    cases m with
    | zero => simp [List.isPrefixOf, List.replicate_succ]
    | succ m =>
      simp [List.isPrefixOf, List.replicate_succ, ih m (by omega)]

theorem closeTail_other (d m : Nat) (c : Char) (t : List Char)
    (hc1 : c ≠ '}') (hc2 : c ≠ '=') :
    (List.replicate d '=' ++ ['}']).isPrefixOf
      (List.replicate m '=' ++ c :: t) = false := by
  have hc1s : ¬('}' = c) := fun hx => hc1 hx.symm
  have hc2s : ¬('=' = c) := fun hx => hc2 hx.symm
  induction d generalizing m with
  | zero =>
    cases m with
    | zero => simp [List.isPrefixOf, hc1s]
    | succ m => simp [List.isPrefixOf, List.replicate_succ]
  | succ d ih =>
    cases m with
    | zero => simp [List.isPrefixOf, List.replicate_succ, hc2s]
    | succ m =>
      simp [List.isPrefixOf, List.replicate_succ, ih m]

theorem closeTail_exhausted (d m : Nat) :
    (List.replicate d '=' ++ ['}']).isPrefixOf (List.replicate m '=') = false := by
  induction d generalizing m with
  | zero =>
    cases m with
    | zero => simp [List.isPrefixOf]
    | succ m => simp [List.isPrefixOf, List.replicate_succ]
  | succ d ih =>
    cases m with
    | zero => simp [List.isPrefixOf, List.replicate_succ]
    | succ m =>
      simp [List.isPrefixOf, List.replicate_succ, ih m]

theorem findClose_eqs (depth j : Nat) (rest : List Char) (i : Nat) :
    findClose depth (List.replicate j '=' ++ rest) i =
      findClose depth rest (i + j) := by
  induction j generalizing i with
  | zero => simp
  | succ j ih =>
    rw [List.replicate_succ, List.cons_append]
    have hpre : (closeTerm depth).isPrefixOf
        ('=' :: (List.replicate j '=' ++ rest)) = false := by
      simp [closeTerm, List.isPrefixOf]
    rw [findClose, hpre]
    simp only [Bool.false_eq_true, if_false]
    rw [ih]
    congr 1
    omega

theorem replicate_snoc_eq (m : Nat) (t : List Char) :
    List.replicate m '=' ++ '=' :: t = List.replicate (m + 1) '=' ++ t := by
  rw [List.replicate_succ', List.append_assoc]
  rfl

/-- Correctness of the closing-scan state machine against the
first-occurrence search: in the ending state the machine behaves as if
the pending closing brace and matched equals signs were still ahead. -/
theorem balancedClose_spec (depth : Nat) (s : List Char) :
    (∀ m e, balancedClose depth s true m e (e + 1 + m) =
      findClose depth ('}' :: (List.replicate m '=' ++ s)) e) ∧
    (∀ m e idx, balancedClose depth s false m e idx = findClose depth s idx) := by
  induction s with
  | nil =>
    constructor
    · intro m e
      have hpre : (closeTerm depth).isPrefixOf
          ('}' :: (List.replicate m '=' ++ ([] : List Char))) = false := by
        simp [closeTerm, List.isPrefixOf, closeTail_exhausted]
      rw [findClose, hpre]
      simp only [Bool.false_eq_true, if_false]
      have heqs := findClose_eqs depth m ([] : List Char) (e + 1)
      simp only [List.append_nil] at heqs ⊢
      rw [heqs]
      rfl
    · intro m e idx
      rfl
  | cons c t ih =>
    constructor
    · intro m e
      by_cases hc1 : c = '}'
      · subst hc1
        by_cases hm : m = depth
        · have hpre : (closeTerm depth).isPrefixOf
              ('}' :: (List.replicate m '=' ++ '}' :: t)) = true := by
            have hsh : ('}' :: (List.replicate m '=' ++ '}' :: t)) =
                closeTerm depth ++ t := by
              simp [closeTerm, hm]
            rw [hsh]
            exact isPrefixOf_append_self _ _
          rw [findClose, hpre]
          simp [balancedClose, hm]
          omega
        · have hpre : (closeTerm depth).isPrefixOf
              ('}' :: (List.replicate m '=' ++ '}' :: t)) = false := by
            simp [closeTerm, List.isPrefixOf, closeTail_ne_depth depth m t hm]
          rw [findClose, hpre]
          simp only [Bool.false_eq_true, if_false]
          rw [findClose_eqs depth m ('}' :: t) (e + 1)]
          have hstep : balancedClose depth ('}' :: t) true m e (e + 1 + m) =
              balancedClose depth t true 0 (e + 1 + m) (e + 1 + m + 1) := by
            simp [balancedClose, hm]
          rw [hstep]
          have h1 := (ih.1) 0 (e + 1 + m)
          simp only [List.replicate_zero, List.nil_append, Nat.add_zero] at h1
          exact h1
      · by_cases hc2 : c = '='
        · subst hc2
          have hstep : balancedClose depth ('=' :: t) true m e (e + 1 + m) =
              balancedClose depth t true (m + 1) e (e + 1 + (m + 1)) := by
            simp [balancedClose]
            rfl
          rw [hstep, (ih.1) (m + 1) e]
          rw [show ('}' :: (List.replicate m '=' ++ '=' :: t)) =
            ('}' :: (List.replicate (m + 1) '=' ++ t)) from by
              rw [replicate_snoc_eq]]
        · have hpre : (closeTerm depth).isPrefixOf
              ('}' :: (List.replicate m '=' ++ c :: t)) = false := by
            simp [closeTerm, List.isPrefixOf,
              closeTail_other depth m c t hc1 hc2]
          rw [findClose, hpre]
          simp only [Bool.false_eq_true, if_false]
          rw [findClose_eqs depth m (c :: t) (e + 1)]
          have hpre2 : (closeTerm depth).isPrefixOf (c :: t) = false := by
            simp only [closeTerm, List.isPrefixOf]
            have : ('}' == c) = false := by
              simp [Ne.symm hc1]
            simp [this]
          rw [findClose, hpre2]
          simp only [Bool.false_eq_true, if_false]
          have hstep : balancedClose depth (c :: t) true m e (e + 1 + m) =
              balancedClose depth t false m e (e + 1 + m + 1) := by
            simp [balancedClose, hc1, hc2]
          rw [hstep, (ih.2) m e (e + 1 + m + 1)]
    · intro m e idx
      by_cases hc1 : c = '}'
      · subst hc1
        have hstep : balancedClose depth ('}' :: t) false m e idx =
            balancedClose depth t true 0 idx (idx + 1) := by
          simp [balancedClose]
        rw [hstep]
        have h1 := (ih.1) 0 idx
        simp only [List.replicate_zero, List.nil_append, Nat.add_zero] at h1
        rw [h1]
      · by_cases hc2 : c = '='
        · subst hc2
          have hstep : balancedClose depth ('=' :: t) false m e idx =
              balancedClose depth t false (m + 1) e (idx + 1) := by
            simp [balancedClose]
          have hpre : (closeTerm depth).isPrefixOf ('=' :: t) = false := by
            simp [closeTerm, List.isPrefixOf]
          rw [hstep, findClose, hpre]
          simp only [Bool.false_eq_true, if_false]
          rw [(ih.2) (m + 1) e (idx + 1)]
        · have hstep : balancedClose depth (c :: t) false m e idx =
              balancedClose depth t false m e (idx + 1) := by
            simp [balancedClose, hc1, hc2]
          have hpre : (closeTerm depth).isPrefixOf (c :: t) = false := by
            simp only [closeTerm, List.isPrefixOf]
            have : ('}' == c) = false := by
              simp [Ne.symm hc1]
            simp [this]
          rw [hstep, findClose, hpre]
          simp only [Bool.false_eq_true, if_false]
          rw [(ih.2) m e (idx + 1)]

theorem balancedOpen_eqs (k : Nat) (body : List Char) :
    balancedOpen (List.replicate k '=' ++ '{' :: body) = some (k, k + 1) := by
  induction k with
  | zero => simp [balancedOpen]
  | succ k ih => simp [balancedOpen, List.replicate_succ, ih]

theorem findClose_self (depth : Nat) (rest : List Char) (idx : Nat) :
    findClose depth (closeTerm depth ++ rest) idx =
      some (idx, idx + depth + 2) := by
  show findClose depth
      ('}' :: ((List.replicate depth '=' ++ ['}']) ++ rest)) idx = _
  rw [findClose]
  have hpre : (closeTerm depth).isPrefixOf
      ('}' :: ((List.replicate depth '=' ++ ['}']) ++ rest)) = true := by
    have hsh : '}' :: ((List.replicate depth '=' ++ ['}']) ++ rest) =
        closeTerm depth ++ rest := rfl
    rw [hsh]
    exact isPrefixOf_append_self _ _
  rw [hpre]
  simp

theorem findClose_first (depth : Nat) (pre rest : List Char) : ∀ idx : Nat,
    (∀ i, i < pre.length →
      (closeTerm depth).isPrefixOf
        ((pre ++ (closeTerm depth ++ rest)).drop i) = false) →
    findClose depth (pre ++ (closeTerm depth ++ rest)) idx =
      some (idx + pre.length, idx + pre.length + depth + 2) := by
  induction pre with
  | nil =>
    intro idx _
    simpa using findClose_self depth rest idx
  | cons c pre ih =>
    intro idx h
    have h0 := h 0 (by simp)
    simp only [List.drop_zero] at h0
    show findClose depth (c :: (pre ++ (closeTerm depth ++ rest))) idx = _
    rw [findClose]
    rw [show (c :: pre ++ (closeTerm depth ++ rest)) =
      (c :: (pre ++ (closeTerm depth ++ rest))) from rfl] at h0
    rw [h0]
    simp only [Bool.false_eq_true, if_false]
    have hshift : ∀ i, i < pre.length →
        (closeTerm depth).isPrefixOf
          ((pre ++ (closeTerm depth ++ rest)).drop i) = false := by
      intro i hi
      have := h (i + 1) (by simpa using Nat.succ_lt_succ hi)
      simpa using this
    rw [ih (idx + 1) hshift]
    have h1 : idx + 1 + pre.length = idx + (pre.length + 1) := by omega
    simp [h1]

theorem parseBalanced_interior (k : Nat) (pre rest : List Char)
    (h : ∀ i, i < pre.length →
      (closeTerm k).isPrefixOf
        ((pre ++ (closeTerm k ++ rest)).drop i) = false) :
    parseBalancedCommandToken
        (List.replicate k '=' ++ '{' :: (pre ++ (closeTerm k ++ rest))) =
      some (pre, k + 1, k + 1 + (pre.length + k + 2)) := by
  have hdrop : (List.replicate k '=' ++
      '{' :: (pre ++ (closeTerm k ++ rest))).drop (k + 1) =
      pre ++ (closeTerm k ++ rest) := by
    rw [show List.replicate k '=' ++ '{' :: (pre ++ (closeTerm k ++ rest)) =
      (List.replicate k '=' ++ ['{']) ++ (pre ++ (closeTerm k ++ rest)) from
        by simp]
    rw [show k + 1 = (List.replicate k '=' ++ ['{']).length from by simp]
    exact List.drop_left _ _
  have htake : (pre ++ (closeTerm k ++ rest)).take pre.length = pre :=
    List.take_left _ _
  unfold parseBalancedCommandToken
  simp only [balancedOpen_eqs, hdrop,
    (balancedClose_spec k (pre ++ (closeTerm k ++ rest))).2 0 0 0,
    findClose_first k pre rest 0 h, Nat.zero_add, htake]

/-- C6: a token opened by an opening brace, optionally preceded by
equals signs inside the bracket pair, is terminated by the first
occurrence of the matching closing bracket sequence and its slice is
exactly the interior text before that occurrence; in particular
tokenizing cmd followed by a doubly braced body yields exactly the
tokens cmd and the interior. -/
theorem command_tokenizer_balanced :
    (∀ (k : Nat) (pre rest : List Char),
      (∀ i, i < pre.length →
        (closeTerm k).isPrefixOf
          ((pre ++ (closeTerm k ++ rest)).drop i) = false) →
      parseBalancedCommandToken
          (List.replicate k '=' ++ '{' :: (pre ++ (closeTerm k ++ rest))) =
        some (pre, k + 1, k + 1 + (pre.length + k + 2))) ∧
    tokenize ['c', 'm', 'd', ' ', '{', '{', '%', '}', '%', '}', '=', '}', '}'] =
      [⟨true, ['c', 'm', 'd'], 0⟩, ⟨true, ['%', '}', '%', '}', '='], 6⟩] :=
  ⟨parseBalanced_interior, by decide⟩

/-- Witness for C6 at the concrete interior of the spec example: depth
zero, interior text with embedded closing braces, empty remainder. -/
theorem command_tokenizer_balanced_witness :
    parseBalancedCommandToken
        (List.replicate 0 '=' ++
          '{' :: (['%', '}', '%', '}', '='] ++ (closeTerm 0 ++ []))) =
      some (['%', '}', '%', '}', '='], 0 + 1, 0 + 1 + (5 + 0 + 2)) :=
  command_tokenizer_balanced.1 0 ['%', '}', '%', '}', '='] [] (by decide)

/-! ## Variable expansion (src/pepper/src/command.rs, expand_variables)

The parts of the editor context consulted by expansion are abstracted
into an environment record: the register lookup combines
RegisterKey::from_char with the register read, so an invalid key maps
to none.  Offsets are character offsets; every boundary the Rust code
computes in bytes falls on a character boundary.
-/

structure ExpansionEnv where
  bufferIndex : Option (List Char)
  currentBufferPath : Option (List Char)
  bufferPathOf : List Char → Option (List Char)
  readlineInput : List Char
  registers : Char → Option (List Char)

/-- Embedding of parse_variable_name: lowercase letters and dashes up
to an opening parenthesis; on any other character the number of
consumed characters is reported as the skip distance. -/
def parseVariableName : List Char → Except Nat (List Char)
  | [] => .error 0
  | c :: t =>
    if ('a' ≤ c ∧ c ≤ 'z') ∨ c = '-' then
      match parseVariableName t with
      | .ok name => .ok (c :: name)
      | .error skip => .error (skip + 1)
    else if c = '(' then .ok []
    else .error 1

/-- Embedding of parse_variable_args: the text up to the first closing
parenthesis, if any. -/
def parseVariableArgs : List Char → Option (List Char)
  | [] => none
  | c :: t =>
    if c = ')' then some []
    else
      match parseVariableArgs t with
      | some args => some (c :: args)
      | none => none

/-- Whitespace trim on both ends, mirroring str::trim on the argument
text. -/
def trimText (s : List Char) : List Char :=
  ((s.dropWhile Char.isWhitespace).reverse.dropWhile Char.isWhitespace).reverse

/-- Embedding of get_expansion_variable_value over the abstracted
context: the four recognized variables, anything else is none. -/
def getExpansionVariableValue (env : ExpansionEnv) (name args : List Char) :
    Option (List Char) :=
  let args := trimText args
  if name = ['b', 'u', 'f', 'f', 'e', 'r', '-', 'i', 'n', 'd', 'e', 'x'] then
    if args = [] then env.bufferIndex else none
  else if name = ['b', 'u', 'f', 'f', 'e', 'r', '-', 'p', 'a', 't', 'h'] then
    if args = [] then env.currentBufferPath else env.bufferPathOf args
  else if name = ['r', 'e', 'a', 'd', 'l', 'i', 'n', 'e', '-', 'i', 'n', 'p',
      'u', 't'] then
    if args = [] then some env.readlineInput else none
  else if name = ['r', 'e', 'g', 'i', 's', 't', 'e', 'r'] then
    match args with
    | [c] => env.registers c
    | _ => none
  else none

/-- Body of the inner loop of expand_variables over one token: find an
at-sign, parse name and arguments, splice the value in place and shift
the running offsets by the size difference; none means the loop breaks
(no at-sign left in the token). -/
def expandStep (env : ExpansionEnv) (text : List Char)
    (restIndex tokenRestIndex tokenEnd : Nat) :
    Option (List Char × Nat × Nat × Nat) :=
  let token := (text.drop tokenRestIndex).take (tokenEnd - tokenRestIndex)
  match token.findIdx? (fun c => c == '@') with
  | none => none
  | some i =>
    let variableStart := tokenRestIndex + i
    match parseVariableName (text.drop (variableStart + 1)) with
    | .error skip => some (text, restIndex, tokenRestIndex + skip, tokenEnd)
    | .ok name =>
      let afterName := variableStart + 1 + name.length + 1
      match parseVariableArgs (text.drop afterName) with
      | none => some (text, restIndex, afterName, tokenEnd)
      | some args =>
        let afterArgs := afterName + args.length + 1
        match getExpansionVariableValue env name args with
        | none => some (text, restIndex, afterArgs, tokenEnd)
        | some expanded =>
          let variableLen := afterArgs - variableStart
          let text2 :=
            text.take variableStart ++ expanded ++ text.drop afterArgs
          if expanded.length < variableLen then
            let delta := variableLen - expanded.length
            some (text2, restIndex - delta, afterArgs - delta,
              tokenEnd - delta)
          else
            let delta := expanded.length - variableLen
            some (text2, restIndex + delta, afterArgs + delta,
              tokenEnd + delta)

/-- Inner loop of expand_variables: iterate expandStep until it breaks. -/
def expandInToken (env : ExpansionEnv) :
    Nat → List Char → Nat → Nat → Nat → List Char × Nat × Nat
  | 0, text, restIndex, _, tokenEnd => (text, restIndex, tokenEnd)
  | fuel + 1, text, restIndex, tokenRestIndex, tokenEnd =>
    match expandStep env text restIndex tokenRestIndex tokenEnd with
    | none => (text, restIndex, tokenEnd)
    | some (t2, r2, tri2, te2) => expandInToken env fuel t2 r2 tri2 te2

theorem expandInToken_succ (env : ExpansionEnv) (fuel : Nat)
    (text : List Char) (restIndex tokenRestIndex tokenEnd : Nat) :
    expandInToken env (fuel + 1) text restIndex tokenRestIndex tokenEnd =
      match expandStep env text restIndex tokenRestIndex tokenEnd with
      | none => (text, restIndex, tokenEnd)
      | some (t2, r2, tri2, te2) => expandInToken env fuel t2 r2 tri2 te2 :=
  rfl

/-- Outer loop of expand_variables: walk the tokens, expanding inside
each token whose expansion is enabled, and collect the token ranges;
when the range buffer capacity is exceeded the collected ranges are
discarded (none) with the text as mutated so far. -/
def expandVariablesLoop (env : ExpansionEnv) (cap : Nat) :
    Nat → List Char → Nat → List (Nat × Nat) →
      List Char × Option (List (Nat × Nat))
  | 0, text, _, _ => (text, none)
  | fuel + 1, text, restIndex, ranges =>
    match tokenizerNext text restIndex with
    | none => (text, some ranges)
    | some (tok, rest2) =>
      if ranges.length ≥ cap then (text, none)
      else
        let tokenStart := tok.start
        let tokenEnd := tokenStart + tok.slice.length
        if tok.canExpandVariables then
          let r := expandInToken env (text.length + 1) text rest2 tokenStart
            tokenEnd
          expandVariablesLoop env cap fuel r.1 r.2.1
            (ranges ++ [(tokenStart, r.2.2)])
        else
          expandVariablesLoop env cap fuel text rest2
            (ranges ++ [(tokenStart, tokenEnd)])

/-- Embedding of expand_variables: the mutated text together with the
collected token ranges. -/
def expandVariables (env : ExpansionEnv) (cap : Nat) (text : List Char) :
    List Char × Option (List (Nat × Nat)) :=
  expandVariablesLoop env cap (text.length + 1) text 0 []

theorem expandVariablesLoop_succ (env : ExpansionEnv) (cap fuel : Nat)
    (text : List Char) (restIndex : Nat) (ranges : List (Nat × Nat)) :
    expandVariablesLoop env cap (fuel + 1) text restIndex ranges =
      match tokenizerNext text restIndex with
      | none => (text, some ranges)
      | some (tok, rest2) =>
        if ranges.length ≥ cap then (text, none)
        else
          let tokenStart := tok.start
          let tokenEnd := tokenStart + tok.slice.length
          if tok.canExpandVariables then
            let r := expandInToken env (text.length + 1) text rest2 tokenStart
              tokenEnd
            expandVariablesLoop env cap fuel r.1 r.2.1
              (ranges ++ [(tokenStart, r.2.2)])
          else
            expandVariablesLoop env cap fuel text rest2
              (ranges ++ [(tokenStart, tokenEnd)]) :=
  rfl

theorem expandStep_stopped (env : ExpansionEnv) (r : Nat) (v : List Char) :
    expandStep env v r v.length v.length = none := by
  simp [expandStep, List.drop_length]

theorem expandInToken_stopped (env : ExpansionEnv) (fuel r : Nat)
    (v : List Char) :
    expandInToken env (fuel + 1) v r v.length v.length = (v, r, v.length) := by
  rw [expandInToken_succ, expandStep_stopped]

theorem tokenizerNext_at_end (v : List Char) :
    tokenizerNext v v.length = none := by
  simp [tokenizerNext, List.drop_length, countLeadingWs, countLeadingAt]

set_option maxHeartbeats 2000000 in
theorem expandVariables_register_value (env : ExpansionEnv) (c : Char)
    (v : List Char) (hca : 'a' ≤ c) (hcz : c ≤ 'z')
    (hreg : env.registers c = some v) :
    (expandVariables env 255
      ('@' :: 'r' :: 'e' :: 'g' :: 'i' :: 's' :: 't' :: 'e' :: 'r' :: '(' ::
        c :: [')'])).1 = v := by
  have hsp : c ≠ ' ' := by intro h; rw [h] at hca; exact absurd hca (by decide)
  have htb : c ≠ '\t' := by intro h; rw [h] at hca; exact absurd hca (by decide)
  have hnl : c ≠ '\n' := by intro h; rw [h] at hca; exact absurd hca (by decide)
  have hcr : c ≠ '\r' := by intro h; rw [h] at hca; exact absurd hca (by decide)
  have hrp : c ≠ ')' := by intro h; rw [h] at hca; exact absurd hca (by decide)
  have hws : isCmdWs c = false := by
    simp [isCmdWs, hsp, htb, hnl, hcr]
  have hwsu : c.isWhitespace = false := by
    simp [Char.isWhitespace, hsp, htb, hnl, hcr]
  have hlit : nextLiteralEnd
      ('@' :: 'r' :: 'e' :: 'g' :: 'i' :: 's' :: 't' :: 'e' :: 'r' :: '(' ::
        c :: [')']) = 12 := by
    simp [nextLiteralEnd, isCmdWs, hws]
    tauto
  have htok : tokenizerNext
      ('@' :: 'r' :: 'e' :: 'g' :: 'i' :: 's' :: 't' :: 'e' :: 'r' :: '(' ::
        c :: [')']) 0 =
      some (⟨true,
        '@' :: 'r' :: 'e' :: 'g' :: 'i' :: 's' :: 't' :: 'e' :: 'r' :: '(' ::
          c :: [')'], 0⟩, 12) := by
    simp [tokenizerNext, countLeadingWs, countLeadingAt, isCmdWs, hlit, hws,
      hsp, htb, hnl, hcr]
  have hargs : parseVariableArgs (c :: [')']) = some [c] := by
    simp [parseVariableArgs, hrp]
  have htrim : trimText [c] = [c] := by
    simp [trimText, List.dropWhile, hwsu]
  have hval : getExpansionVariableValue env
      ['r', 'e', 'g', 'i', 's', 't', 'e', 'r'] [c] = some v := by
    simp only [getExpansionVariableValue, htrim]
    simp [hreg]
  have hstep1 : expandStep env
      ('@' :: 'r' :: 'e' :: 'g' :: 'i' :: 's' :: 't' :: 'e' :: 'r' :: '(' ::
        c :: [')']) 12 0 12 = some (v, v.length, v.length, v.length) := by
    have hfind : List.findIdx? (fun x => x == '@')
        (('@' :: 'r' :: 'e' :: 'g' :: 'i' :: 's' :: 't' :: 'e' :: 'r' ::
          '(' :: c :: [')']).take 12) = some 0 := rfl
    have hname : parseVariableName
        ('r' :: 'e' :: 'g' :: 'i' :: 's' :: 't' :: 'e' :: 'r' :: '(' ::
          c :: [')']) = .ok ['r', 'e', 'g', 'i', 's', 't', 'e', 'r'] := rfl
    simp only [expandStep, List.drop_zero, Nat.sub_zero, hfind, Nat.add_zero,
      Nat.zero_add, List.drop, hname, List.length_cons, List.length_nil]
    norm_num
    simp only [show (10 : Nat) = 7 + 1 + 1 + 1 from by norm_num, List.drop,
      hargs]
    norm_num
    simp only [show (12 : Nat) = 7 + 1 + 1 + 1 + 1 + 1 from by norm_num,
      List.drop, hval, List.take]
    norm_num
    by_cases hv : v.length < 12
    · simp only [if_pos hv, Option.some.injEq, Prod.mk.injEq]
      refine ⟨by simp, by omega, by omega, by omega⟩
    · simp only [if_neg hv, Option.some.injEq, Prod.mk.injEq]
      refine ⟨by simp, by omega, by omega, by omega⟩
  have hinner : expandInToken env (12 + 1)
      ('@' :: 'r' :: 'e' :: 'g' :: 'i' :: 's' :: 't' :: 'e' :: 'r' :: '(' ::
        c :: [')']) 12 0 12 = (v, v.length, v.length) := by
    rw [expandInToken_succ, hstep1]
    exact expandInToken_stopped env 11 v.length v
  show (expandVariablesLoop env 255 (12 + 1)
    ('@' :: 'r' :: 'e' :: 'g' :: 'i' :: 's' :: 't' :: 'e' :: 'r' :: '(' ::
      c :: [')']) 0 []).1 = v
  rw [expandVariablesLoop_succ, htok]
  simp only [List.length_nil, List.length_cons, ge_iff_le, Nat.le_zero,
    OfNat.ofNat_ne_zero, if_false]
  norm_num
  rw [hinner]
  rw [expandVariablesLoop_succ, tokenizerNext_at_end]

/-- C7: the token at-register-of-key expands in place to the register
contents whenever the argument is a single valid register key (the
register lookup succeeds), while an argument that is not a single valid
key (two characters, or an invalid key making the lookup fail) and an
unrecognized variable name leave the text unchanged verbatim. -/
theorem variable_expansion_register :
    (∀ (env : ExpansionEnv) (c : Char) (v : List Char),
      'a' ≤ c → c ≤ 'z' → env.registers c = some v →
      (expandVariables env 255
        ('@' :: 'r' :: 'e' :: 'g' :: 'i' :: 's' :: 't' :: 'e' :: 'r' :: '(' ::
          c :: [')'])).1 = v) ∧
    (∀ env : ExpansionEnv,
      expandVariables env 255
        ['@', 'r', 'e', 'g', 'i', 's', 't', 'e', 'r', '(', 'x', 'x', ')'] =
      (['@', 'r', 'e', 'g', 'i', 's', 't', 'e', 'r', '(', 'x', 'x', ')'],
        some [(0, 13)])) ∧
    (∀ env : ExpansionEnv,
      expandVariables env 255 ['@', 'n', 'o', 'v', 'a', 'r', '(', 'x', ')'] =
      (['@', 'n', 'o', 'v', 'a', 'r', '(', 'x', ')'], some [(0, 9)])) :=
  ⟨expandVariables_register_value, fun _ => rfl, fun _ => rfl⟩

def sampleRegisters : Char → Option (List Char) := fun c =>
  if c = 'x' then
    some ['m', 'y', ' ', 'r', 'e', 'g', 'i', 's', 't', 'e', 'r', ' ', 'c',
      'o', 'n', 't', 'e', 'n', 't', 's']
  else none

def sampleEnv : ExpansionEnv :=
  ⟨none, none, fun _ => none, [], sampleRegisters⟩

/-- Witness for C7: with register x holding the sample contents, the
register expansion produces exactly those contents, and the two-letter
argument is left unchanged. -/
theorem variable_expansion_register_witness :
    (expandVariables sampleEnv 255
      ('@' :: 'r' :: 'e' :: 'g' :: 'i' :: 's' :: 't' :: 'e' :: 'r' :: '(' ::
        'x' :: [')'])).1 =
      ['m', 'y', ' ', 'r', 'e', 'g', 'i', 's', 't', 'e', 'r', ' ', 'c', 'o',
        'n', 't', 'e', 'n', 't', 's'] ∧
    expandVariables sampleEnv 255
        ['@', 'r', 'e', 'g', 'i', 's', 't', 'e', 'r', '(', 'x', 'x', ')'] =
      (['@', 'r', 'e', 'g', 'i', 's', 't', 'e', 'r', '(', 'x', 'x', ')'],
        some [(0, 13)]) :=
  ⟨variable_expansion_register.1 sampleEnv 'x' _ (by decide) (by decide) rfl,
    variable_expansion_register.2.1 sampleEnv⟩

/-! ## Command dispatch, bang and aliases
(src/pepper/src/command.rs, CommandManager and CommandIO)

A command table is modelled by its list of names, an alias collection
by its list of from/to pairs (the Rust arena with offset triples
realizes exactly such a sequence); eval is modelled up to the dispatch
decision: which command runs, with which bang flag, and where its
argument iterator starts.  Only the error variants the dispatch path
can produce are modelled out of the full error enumeration.
-/

inductive CommandError where
  | noSuchCommand
  | unsavedChanges
  deriving DecidableEq, Repr

/-- Embedding of CommandManager::find_command: first command with the
wanted name. -/
def findCommand (commands : List (List Char)) (name : List Char) :
    Option (List Char) :=
  commands.find? (fun c => c == name)

/-- Embedding of AliasCollection::find: first alias whose from-name
matches. -/
def aliasFind (aliases : List (List Char × List Char)) (fr : List Char) :
    Option (List Char) :=
  match aliases with
  | [] => none
  | (f, t) :: rest => if f = fr then some t else aliasFind rest fr

/-- Trailing-bang trim mirroring trim_end_matches: all trailing
exclamation marks are removed. -/
def trimEndBangs (s : List Char) : List Char :=
  (s.reverse.dropWhile (fun c => c == '!')).reverse

/-- Single-bang strip mirroring strip_suffix: one trailing exclamation
mark, when present. -/
def stripSuffixBang (s : List Char) : Option (List Char) :=
  if s.getLast? = some '!' then some s.dropLast else none

def replaceRange (text : List Char) (start stop : Nat) (repl : List Char) :
    List Char :=
  text.take start ++ repl ++ text.drop stop

structure DispatchResult where
  name : List Char
  bang : Bool
  argsPos : Nat
  deriving DecidableEq, Repr

/-- Embedding of CommandManager::eval up to the dispatch decision: the
first token selects the command, one trailing exclamation mark sets the
bang flag, an unknown name is NoSuchCommand; the command function then
runs with the remaining tokens as arguments. -/
def evalDispatch (commands : List (List Char)) (command : List Char) :
    Except CommandError DispatchResult :=
  match tokenizerNext command 0 with
  | none => .error .noSuchCommand
  | some (tok, rest) =>
    let stripped := match stripSuffixBang tok.slice with
      | some s => (s, true)
      | none => (tok.slice, false)
    match findCommand commands stripped.1 with
    | none => .error .noSuchCommand
    | some _ => .ok ⟨stripped.1, stripped.2, rest⟩

/-- Embedding of CommandManager::try_eval: expand variables, then if
the first token minus all trailing exclamation marks is a registered
alias from-name, splice the alias to-text over it, then dispatch. -/
def tryEvalDispatch (env : ExpansionEnv)
    (aliases : List (List Char × List Char)) (commands : List (List Char))
    (command : List Char) : Except CommandError DispatchResult :=
  let expanded := (expandVariables env 255 command).1
  let command2 :=
    match tokenizerNext expanded 0 with
    | none => expanded
    | some (tok, _) =>
      let aliasName := trimEndBangs tok.slice
      match aliasFind aliases aliasName with
      | none => expanded
      | some aliased =>
        replaceRange expanded tok.start (tok.start + aliasName.length) aliased
  evalDispatch commands command2

/-- Embedding of CommandIO::assert_can_discard_buffer over the bang
flag and the needs-save state of the target buffer. -/
def assertCanDiscardBuffer (bang needsSave : Bool) :
    Except CommandError Unit :=
  if bang || !needsSave then .ok () else .error .unsavedChanges

/-- Embedding of CommandIO::assert_can_discard_all_buffers over the
bang flag and the needs-save states of all buffers. -/
def assertCanDiscardAllBuffers (bang : Bool) (buffersNeedSave : List Bool) :
    Except CommandError Unit :=
  if bang || !(buffersNeedSave.any id) then .ok ()
  else .error .unsavedChanges

/-- Characters of ordinary command names: lowercase letters and dashes. -/
def isPlainNameChar (c : Char) : Bool := ('a' ≤ c && c ≤ 'z') || c = '-'

def isPlainTokenChar (c : Char) : Bool := isPlainNameChar c || c = '!'

theorem plainTokenChar_facts (c : Char) (h : isPlainTokenChar c = true) :
    isCmdWs c = false ∧ c ≠ '"' ∧ c ≠ '\'' ∧ c ≠ '@' ∧ c ≠ '{' := by
  simp only [isPlainTokenChar, isPlainNameChar, Bool.or_eq_true,
    Bool.and_eq_true, decide_eq_true_eq] at h
  rcases h with (⟨h1, h2⟩ | h) | h
  · refine ⟨?_, ?_, ?_, ?_, ?_⟩
    · have hs : c ≠ ' ' := by
        intro hx; rw [hx] at h1; exact absurd h1 (by decide)
      have ht : c ≠ '\t' := by
        intro hx; rw [hx] at h1; exact absurd h1 (by decide)
      have hr : c ≠ '\r' := by
        intro hx; rw [hx] at h1; exact absurd h1 (by decide)
      have hn : c ≠ '\n' := by
        intro hx; rw [hx] at h1; exact absurd h1 (by decide)
      simp [isCmdWs, hs, ht, hr, hn]
    · intro hx; rw [hx] at h1; exact absurd h1 (by decide)
    · intro hx; rw [hx] at h1; exact absurd h1 (by decide)
    · intro hx; rw [hx] at h1; exact absurd h1 (by decide)
    · intro hx; rw [hx] at h2; exact absurd h2 (by decide)
  · subst h; refine ⟨by decide, by decide, by decide, by decide, by decide⟩
  · subst h; refine ⟨by decide, by decide, by decide, by decide, by decide⟩

theorem nextLiteralEnd_all (s : List Char)
    (h : ∀ c ∈ s, isCmdWs c = false) : nextLiteralEnd s = s.length := by
  induction s with
  | nil => rfl
  | cons c t ih =>
    have hc := h c (by simp)
    simp [nextLiteralEnd, hc, ih (fun x hx => h x (by simp [hx]))]

/-- Plain literal tokens: a nonempty run of name characters and
exclamation marks is tokenized as one whole literal token. -/
theorem tokenizerNext_plain (s : List Char) (hne : s ≠ [])
    (h : ∀ c ∈ s, isPlainTokenChar c = true) :
    tokenizerNext s 0 = some (⟨true, s, 0⟩, s.length) := by
  match s, hne with
  | c :: t, _ =>
    have hfacts := plainTokenChar_facts c (h c (by simp))
    have hws0 : countLeadingWs (c :: t) = 0 := by
      simp [countLeadingWs, hfacts.1]
    have hat0 : countLeadingAt (c :: t) = 0 := by
      simp [countLeadingAt, hfacts.2.2.2.1]
    have hlit : nextLiteralEnd (c :: t) = (c :: t).length :=
      nextLiteralEnd_all _ (fun x hx => (plainTokenChar_facts x (h x hx)).1)
    simp [tokenizerNext, hws0, hat0, hlit, hfacts.2.1, hfacts.2.2.1,
      hfacts.2.2.2.2, List.take_length]

theorem findCommand_mem (commands : List (List Char)) (name : List Char)
    (h : name ∈ commands) : findCommand commands name = some name := by
  induction commands with
  | nil => cases h
  | cons f rest ih =>
    rcases List.mem_cons.mp h with h1 | h2
    · subst h1
      simp [findCommand]
    · by_cases hf : f = name
      · subst hf
        simp [findCommand]
      · have hbeq : (f == name) = false := by simp [hf]
        have hr := ih h2
        simp only [findCommand, List.find?] at hr ⊢
        simp [hbeq, hr]

theorem getLast?_plain_ne_bang (name : List Char)
    (hplain : ∀ c ∈ name, isPlainNameChar c = true) :
    name.getLast? ≠ some '!' := by
  intro h
  have hx : '!' ∈ name.getLast? := by rw [h]; rfl
  obtain ⟨hne2, heq⟩ := List.mem_getLast?_eq_getLast hx
  have hmem : '!' ∈ name := by rw [heq]; exact List.getLast_mem hne2
  have := hplain '!' hmem
  simp [isPlainNameChar] at this

theorem evalDispatch_bang (commands : List (List Char)) (name : List Char)
    (hne : name ≠ []) (hplain : ∀ c ∈ name, isPlainNameChar c = true)
    (hmem : name ∈ commands) :
    evalDispatch commands (name ++ ['!']) =
      .ok ⟨name, true, name.length + 1⟩ ∧
    evalDispatch commands name = .ok ⟨name, false, name.length⟩ := by
  have htokchars : ∀ c ∈ name ++ ['!'], isPlainTokenChar c = true := by
    intro c hc
    rcases List.mem_append.mp hc with h | h
    · simp [isPlainTokenChar, hplain c h]
    · simp at h
      subst h
      rfl
  have htok1 := tokenizerNext_plain (name ++ ['!']) (by simp) htokchars
  have htok2 := tokenizerNext_plain name hne
    (fun c hc => by simp [isPlainTokenChar, hplain c hc])
  have hstrip1 : stripSuffixBang (name ++ ['!']) = some name := by
    simp [stripSuffixBang]
  have hstrip2 : stripSuffixBang name = none := by
    simp [stripSuffixBang, getLast?_plain_ne_bang name hplain]
  constructor
  · simp only [evalDispatch, htok1, hstrip1, findCommand_mem commands name hmem]
    simp
  · simp only [evalDispatch, htok2, hstrip2, findCommand_mem commands name hmem]

/-- C4 (amended): a trailing exclamation mark on the command token sets
the bang flag (and without it the flag is clear) for any registered
command — the dispatcher consults no bang-usage declaration and never
rejects a bang invocation — and the discard-unsaved-changes checks
return UnsavedChanges exactly when bang is false and a relevant buffer
needs saving. -/
theorem command_bang_semantics :
    (∀ (commands : List (List Char)) (name : List Char), name ≠ [] →
      (∀ c ∈ name, isPlainNameChar c = true) → name ∈ commands →
      evalDispatch commands (name ++ ['!']) =
        .ok ⟨name, true, name.length + 1⟩ ∧
      evalDispatch commands name = .ok ⟨name, false, name.length⟩) ∧
    (∀ bang needsSave : Bool,
      assertCanDiscardBuffer bang needsSave =
        if bang = false ∧ needsSave = true then .error .unsavedChanges
        else .ok ()) ∧
    (∀ (bang : Bool) (flags : List Bool),
      assertCanDiscardAllBuffers bang flags =
        if bang = false ∧ flags.any id = true then .error .unsavedChanges
        else .ok ()) := by
  refine ⟨evalDispatch_bang, ?_, ?_⟩
  · intro bang needsSave
    cases bang <;> cases needsSave <;> simp [assertCanDiscardBuffer]
  intro bang flags
  cases bang
  · by_cases h : flags.any id = true
    · simp [assertCanDiscardAllBuffers, h]
    · simp only [Bool.not_eq_true] at h
      simp [assertCanDiscardAllBuffers, h]
  · simp [assertCanDiscardAllBuffers]

/-- Witness for C4 at concrete inputs: quit! dispatches quit with bang
set, quit without bang, and the all-buffers check with one unsaved
buffer errors without bang and passes with it. -/
theorem command_bang_semantics_witness :
    evalDispatch [['q', 'u', 'i', 't']] (['q', 'u', 'i', 't'] ++ ['!']) =
      .ok ⟨['q', 'u', 'i', 't'], true, 5⟩ ∧
    evalDispatch [['q', 'u', 'i', 't']] ['q', 'u', 'i', 't'] =
      .ok ⟨['q', 'u', 'i', 't'], false, 4⟩ ∧
    assertCanDiscardAllBuffers false [true] = .error .unsavedChanges ∧
    assertCanDiscardAllBuffers true [true] = .ok () :=
  ⟨(command_bang_semantics.1 [['q', 'u', 'i', 't']] ['q', 'u', 'i', 't']
      (by decide) (by decide) (by simp)).1,
    (command_bang_semantics.1 [['q', 'u', 'i', 't']] ['q', 'u', 'i', 't']
      (by decide) (by decide) (by simp)).2,
    (command_bang_semantics.2.2 false [true]).trans (by simp),
    (command_bang_semantics.2.2 true [true]).trans (by simp)⟩

/-- Counterexample to C4 as stated: the dispatcher carries no bang-usage
field; the help command declares none, yet evaluating help with a bang
dispatches it with the bang flag set instead of rejecting the
invocation. -/
theorem command_bang_reject_counterexample :
    evalDispatch [['h', 'e', 'l', 'p']] ['h', 'e', 'l', 'p', '!'] =
      .ok ⟨['h', 'e', 'l', 'p'], true, 5⟩ := rfl

def emptyEnv : ExpansionEnv := ⟨none, none, fun _ => none, [], fun _ => none⟩

/-- C5: with an alias from q to quit registered, evaluating q! replaces
the first token minus its trailing bang by the alias expansion before
dispatch, so the quit command is dispatched with the bang flag set;
this holds for every environment, every alias collection resolving q,
and every command table containing quit. -/
theorem alias_resolution (env : ExpansionEnv)
    (aliases : List (List Char × List Char)) (commands : List (List Char))
    (hq : aliasFind aliases ['q'] = some ['q', 'u', 'i', 't'])
    (hquit : ['q', 'u', 'i', 't'] ∈ commands) :
    tryEvalDispatch env aliases commands ['q', '!'] =
      .ok ⟨['q', 'u', 'i', 't'], true, 5⟩ := by
  have hexp : (expandVariables env 255 ['q', '!']).1 = ['q', '!'] := rfl
  simp only [tryEvalDispatch, hexp,
    show tokenizerNext ['q', '!'] 0 = some (⟨true, ['q', '!'], 0⟩, 2)
      from rfl,
    show trimEndBangs ['q', '!'] = ['q'] from rfl, hq]
  exact (evalDispatch_bang commands ['q', 'u', 'i', 't'] (by decide)
    (by decide) hquit).1

/-- Witness for C5: the empty environment, the single alias q to quit
and the single command quit. -/
theorem alias_resolution_witness :
    tryEvalDispatch emptyEnv [(['q'], ['q', 'u', 'i', 't'])]
      [['q', 'u', 'i', 't']] ['q', '!'] =
      .ok ⟨['q', 'u', 'i', 't'], true, 5⟩ :=
  alias_resolution emptyEnv [(['q'], ['q', 'u', 'i', 't'])]
    [['q', 'u', 'i', 't']] (by decide) (by simp)

/-! ## LSP framing (src/plugin-lsp/src/protocol.rs)

Bytes are `Nat`s.  The JSON reader applied to each complete body is an
external collaborator; an event is modelled by the raw body bytes of
its frame.
-/

/-- ASCII bytes of the Content-Length header pattern. -/
def clPattern : List Nat :=
  [67, 111, 110, 116, 101, 110, 116, 45, 76, 101, 110, 103, 116, 104, 58, 32]

/-- ASCII bytes of the blank-line separator after the header. -/
def sepPattern : List Nat := [13, 10, 13, 10]

/-- First position where the pattern occurs, mirroring the windows
search in find_pattern_end. -/
def findPatternPos (pat : List Nat) : List Nat → Option Nat
  | [] => if pat.isPrefixOf [] then some 0 else none
  | b :: t =>
    if pat.isPrefixOf (b :: t) then some 0
    else (findPatternPos pat t).map (fun x => x + 1)

def findPatternEnd (buf pat : List Nat) : Option Nat :=
  (findPatternPos pat buf).map (fun p => p + pat.length)

/-- Decimal reading of the leading digit run, mirroring parse_number. -/
def parseNumberAcc (acc : Nat) : List Nat → Nat
  | [] => acc
  | b :: t =>
    if 48 ≤ b ∧ b ≤ 57 then parseNumberAcc (acc * 10 + (b - 48)) t else acc

def parseNumber (buf : List Nat) : Nat := parseNumberAcc 0 buf

/-- Embedding of try_get_content_range: locate the header pattern, then
the separator, read the decimal length, and when that many bytes follow
the separator return the body range within the buffer. -/
def tryGetContentRange (buf : List Nat) : Option (Nat × Nat) :=
  match findPatternEnd buf clPattern with
  | none => none
  | some cli =>
    let buf2 := buf.drop cli
    match findPatternEnd buf2 sepPattern with
    | none => none
    | some ci =>
      let n := parseNumber buf2
      if n ≤ (buf2.drop ci).length then some (cli + ci, cli + ci + n)
      else none

/-- Embedding of the ServerEventIter loop: repeatedly take the next
complete frame from the remaining buffer, collecting the body slices
and the number of consumed bytes (the final read_len). -/
def serverEventsLoop : Nat → List Nat → List (List Nat) × Nat
  | 0, _ => ([], 0)
  | fuel + 1, buf =>
    if buf = [] then ([], 0)
    else
      match tryGetContentRange buf with
      | none => ([], 0)
      | some (s, e) =>
        let body := (buf.drop s).take (e - s)
        let rest := serverEventsLoop fuel (buf.drop e)
        (body :: rest.1, e + rest.2)

/-- Embedding of Protocol::parse_events followed by draining the
iterator and ServerEventIter::finish: the incoming bytes are appended
to the read buffer, the complete frames are parsed in order, and the
consumed bytes are drained, leaving the remainder as the new read
buffer. -/
def parseEventsAndFinish (readBuf bytes : List Nat) :
    List (List Nat) × List Nat :=
  let buf := readBuf ++ bytes
  let r := serverEventsLoop (buf.length + 1) buf
  (r.1, buf.drop r.2)

/-- Header-plus-body bytes of one frame whose length field holds the
digit bytes d. -/
def frameBytes (d body : List Nat) : List Nat :=
  clPattern ++ d ++ sepPattern ++ body

def framesBytes : List (List Nat × List Nat) → List Nat
  | [] => []
  | p :: t => frameBytes p.1 p.2 ++ framesBytes t

/-- Well-formed frame data: a nonempty run of decimal digit bytes whose
value is the body length. -/
def wellFormedFrame (d body : List Nat) : Prop :=
  d ≠ [] ∧ (∀ b ∈ d, 48 ≤ b ∧ b ≤ 57) ∧ parseNumber d = body.length

instance (d body : List Nat) : Decidable (wellFormedFrame d body) := by
  unfold wellFormedFrame
  infer_instance

theorem findPatternPos_self (pat tail : List Nat) (h : pat ≠ []) :
    findPatternPos pat (pat ++ tail) = some 0 := by
  match pat, h with
  | p :: pt, _ =>
    show findPatternPos (p :: pt) (p :: (pt ++ tail)) = some 0
    have hpre := isPrefixOf_append_self (p :: pt) tail
    simp only [findPatternPos]
    rw [show (p :: pt) ++ tail = p :: (pt ++ tail) from rfl] at hpre
    simp [hpre]

theorem findPatternPos_digits (d tail : List Nat)
    (hdig : ∀ b ∈ d, 48 ≤ b ∧ b ≤ 57) :
    findPatternPos sepPattern (d ++ (sepPattern ++ tail)) = some d.length := by
  induction d with
  | nil => simpa using findPatternPos_self sepPattern tail (by decide)
  | cons b t ih =>
    have hb := hdig b (by simp)
    have hbe : ((13 : Nat) == b) = false := by
      simp only [beq_eq_false_iff_ne, ne_eq]
      omega
    show findPatternPos sepPattern (b :: (t ++ (sepPattern ++ tail))) = _
    simp only [findPatternPos, sepPattern, List.isPrefixOf, hbe,
      Bool.false_and, Bool.false_eq_true, if_false]
    rw [show ([13, 10, 13, 10] : List Nat) = sepPattern from rfl,
      ih (fun x hx => hdig x (by simp [hx]))]
    simp

theorem parseNumberAcc_stop (d tail : List Nat) (acc : Nat)
    (hdig : ∀ b ∈ d, 48 ≤ b ∧ b ≤ 57) :
    parseNumberAcc acc (d ++ 13 :: tail) = parseNumberAcc acc d := by
  induction d generalizing acc with
  | nil =>
    simp [parseNumberAcc]
  | cons b t ih =>
    have hb := hdig b (by simp)
    simp only [List.cons_append, parseNumberAcc, if_pos hb]
    exact ih _ (fun x hx => hdig x (by simp [hx]))

theorem tryGetContentRange_frame (d body rest : List Nat)
    (hwf : wellFormedFrame d body) :
    tryGetContentRange (frameBytes d body ++ rest) =
      some (20 + d.length, 20 + d.length + body.length) := by
  obtain ⟨hd, hdig, hlen⟩ := hwf
  have hshape : frameBytes d body ++ rest =
      clPattern ++ (d ++ (sepPattern ++ (body ++ rest))) := by
    simp [frameBytes, clPattern, sepPattern]
  have hcl : findPatternEnd (frameBytes d body ++ rest) clPattern =
      some 16 := by
    rw [hshape, findPatternEnd, findPatternPos_self clPattern _ (by decide)]
    rfl
  have hdrop16 : (frameBytes d body ++ rest).drop 16 =
      d ++ (sepPattern ++ (body ++ rest)) := by
    rw [hshape, show (16 : Nat) = clPattern.length from rfl]
    exact List.drop_left _ _
  have hsep : findPatternEnd (d ++ (sepPattern ++ (body ++ rest)))
      sepPattern = some (d.length + 4) := by
    rw [findPatternEnd, findPatternPos_digits d _ hdig]
    rfl
  have hnum : parseNumber (d ++ (sepPattern ++ (body ++ rest))) =
      body.length := by
    show parseNumberAcc 0 (d ++ 13 :: (10 :: 13 :: 10 :: (body ++ rest))) =
      body.length
    rw [parseNumberAcc_stop d _ 0 hdig]
    exact hlen
  have hdropsep : (d ++ (sepPattern ++ (body ++ rest))).drop (d.length + 4) =
      body ++ rest := by
    rw [show d ++ (sepPattern ++ (body ++ rest)) =
      (d ++ sepPattern) ++ (body ++ rest) from by simp,
      show d.length + 4 = (d ++ sepPattern).length from by
        simp [sepPattern]]
    exact List.drop_left _ _
  simp only [tryGetContentRange, hcl, hdrop16, hsep, hnum, hdropsep]
  rw [if_pos (by simp)]
  have : 16 + (d.length + 4) = 20 + d.length := by omega
  rw [this]

theorem frameBytes_length (d body : List Nat) :
    (frameBytes d body).length = 20 + d.length + body.length := by
  simp [frameBytes, clPattern, sepPattern]
  omega

theorem frameBytes_ne_nil (d body : List Nat) :
    frameBytes d body ++ rest ≠ [] := by
  simp [frameBytes, clPattern]

theorem serverEventsLoop_frames (frames : List (List Nat × List Nat))
    (rest : List Nat) (hwf : ∀ p ∈ frames, wellFormedFrame p.1 p.2)
    (hrest : tryGetContentRange rest = none) :
    ∀ fuel, frames.length < fuel →
    serverEventsLoop fuel (framesBytes frames ++ rest) =
      (frames.map (fun p => p.2), (framesBytes frames).length) := by
  induction frames with
  | nil =>
    intro fuel hfuel
    match fuel, hfuel with
    | f + 1, _ =>
      by_cases hr : rest = []
      · simp [serverEventsLoop, framesBytes, hr]
      · simp [serverEventsLoop, framesBytes, hr, hrest]
  | cons p t ih =>
    intro fuel hfuel
    match fuel, hfuel with
    | f + 1, hfuel =>
      have hwfp := hwf p (by simp)
      have hshape : framesBytes (p :: t) ++ rest =
          frameBytes p.1 p.2 ++ (framesBytes t ++ rest) := by
        simp [framesBytes]
      have htr := tryGetContentRange_frame p.1 p.2 (framesBytes t ++ rest)
        hwfp
      have hne : framesBytes (p :: t) ++ rest ≠ [] := by
        rw [hshape]; exact frameBytes_ne_nil p.1 p.2
      have hdropS : (frameBytes p.1 p.2 ++ (framesBytes t ++ rest)).drop
          (20 + p.1.length) = p.2 ++ (framesBytes t ++ rest) := by
        rw [show frameBytes p.1 p.2 ++ (framesBytes t ++ rest) =
          (clPattern ++ p.1 ++ sepPattern) ++
            (p.2 ++ (framesBytes t ++ rest)) from by
            simp [frameBytes],
          show 20 + p.1.length = (clPattern ++ p.1 ++ sepPattern).length
            from by simp [clPattern, sepPattern]; omega]
        exact List.drop_left _ _
      have hdropE : (frameBytes p.1 p.2 ++ (framesBytes t ++ rest)).drop
          (20 + p.1.length + p.2.length) = framesBytes t ++ rest := by
        rw [show 20 + p.1.length + p.2.length = (frameBytes p.1 p.2).length
          from (frameBytes_length p.1 p.2).symm]
        exact List.drop_left _ _
      have htake : (p.2 ++ (framesBytes t ++ rest)).take p.2.length = p.2 :=
        List.take_left _ _
      rw [hshape, serverEventsLoop, if_neg (frameBytes_ne_nil p.1 p.2), htr]
      simp only [hdropS, hdropE]
      rw [show 20 + p.1.length + p.2.length - (20 + p.1.length) = p.2.length
        from by omega]
      rw [htake, ih (fun x hx => hwf x (by simp [hx])) f (by
        simpa using Nat.lt_of_succ_lt_succ hfuel)]
      simp only [List.map_cons]
      congr 1
      rw [show framesBytes (p :: t) = frameBytes p.1 p.2 ++ framesBytes t
        from rfl, List.length_append, frameBytes_length]

theorem framesBytes_length_ge (frames : List (List Nat × List Nat)) :
    frames.length ≤ (framesBytes frames).length := by
  induction frames with
  | nil => simp [framesBytes]
  | cons p t ih =>
    rw [show framesBytes (p :: t) = frameBytes p.1 p.2 ++ framesBytes t
      from rfl]
    simp only [List.length_cons, List.length_append, frameBytes_length]
    omega

/-- C9: appending read bytes whose concatenation with the pending
buffer consists of complete well-formed frames followed by a remainder
holding no complete frame yields exactly the frame bodies, in order,
and leaves exactly that remainder in the read buffer after finish — so
a frame split across reads is parsed once its remainder arrives. -/
theorem lsp_framing (frames : List (List Nat × List Nat))
    (rest state bytes : List Nat)
    (hwf : ∀ p ∈ frames, wellFormedFrame p.1 p.2)
    (hrest : tryGetContentRange rest = none)
    (hsplit : state ++ bytes = framesBytes frames ++ rest) :
    parseEventsAndFinish state bytes = (frames.map (fun p => p.2), rest) := by
  unfold parseEventsAndFinish
  rw [hsplit]
  have hfuel : frames.length < (framesBytes frames ++ rest).length + 1 := by
    have h1 := framesBytes_length_ge frames
    simp only [List.length_append]
    omega
  show ((serverEventsLoop ((framesBytes frames ++ rest).length + 1)
      (framesBytes frames ++ rest)).1,
    (framesBytes frames ++ rest).drop
      (serverEventsLoop ((framesBytes frames ++ rest).length + 1)
        (framesBytes frames ++ rest)).2) =
    (frames.map (fun p => p.2), rest)
  rw [serverEventsLoop_frames frames rest hwf hrest _ hfuel]
  simp [List.drop_left]

/-- Witness for C9: two concrete frames (bodies of two and three bytes)
split across two reads in the middle of the first header, followed by a
three-byte partial header that stays in the buffer. -/
theorem lsp_framing_witness :
    parseEventsAndFinish (clPattern ++ [50])
      (sepPattern ++ [123, 125] ++ frameBytes [51] [97, 98, 99] ++
        [67, 111, 110]) =
      ([[123, 125], [97, 98, 99]], [67, 111, 110]) :=
  lsp_framing [([50], [123, 125]), ([51], [97, 98, 99])] [67, 111, 110]
    (clPattern ++ [50])
    (sepPattern ++ [123, 125] ++ frameBytes [51] [97, 98, 99] ++
      [67, 111, 110])
    (by decide) (by decide) (by decide)

/-! ## URI and path mapping (src/plugin-lsp/src/protocol.rs, Uri)

Paths follow the POSIX semantics of Rust Path components: an optional
root, then normal, current-directory and parent-directory components;
the components iterator drops empty segments and drops dot segments
except at the head of a relative path, which the model mirrors in its
string-to-path parse.  Display has no root parameter in the source; the
URI displayed for a path p relative to root is that of the joined
absolute path, as at the call sites. -/

inductive PathComp where
  | normal (s : List Char)
  | curDir
  | parentDir
  deriving DecidableEq, Repr

structure PosixPath where
  absolute : Bool
  comps : List PathComp
  deriving DecidableEq, Repr

def renderComp : PathComp → List Char
  | .normal s => s
  | .curDir => ['.']
  | .parentDir => ['.', '.']

/-- Separator-joined rendering of the components, mirroring the
fmt_path loop after the root; the root itself contributes only the
separator that follows it. -/
def fmtComps : List PathComp → List Char
  | [] => []
  | [c] => renderComp c
  | c :: rest => renderComp c ++ '/' :: fmtComps rest

/-- Embedding of fmt_path on POSIX paths: a root writes nothing itself
but is followed by a separator when components follow. -/
def fmtPath (p : PosixPath) : List Char :=
  if p.absolute then
    match p.comps with
    | [] => []
    | comps => '/' :: fmtComps comps
  else fmtComps p.comps

/-- Embedding of PathBuf::push followed by re-reading the components:
an absolute argument replaces the path; a relative argument appends,
and its dot components are all dropped since none of them remains at
the head of a relative path. -/
def joinPath (root p : PosixPath) : PosixPath :=
  if p.absolute then p
  else
    ⟨root.absolute,
      root.comps ++ p.comps.filter (fun c => c ≠ PathComp.curDir)⟩

/-- URI rendering of the path p relative to root: the Display impl
applied to the joined absolute path. -/
def uriDisplay (root p : PosixPath) : List Char :=
  ['f', 'i', 'l', 'e', ':', '/', '/', '/'] ++ fmtPath (joinPath root p)

def splitSlash : List Char → List (List Char)
  | [] => [[]]
  | c :: t =>
    if c = '/' then [] :: splitSlash t
    else
      match splitSlash t with
      | h :: r => (c :: h) :: r
      | [] => [[c]]

def parseSeg (seg : List Char) : PathComp :=
  if seg = ['.'] then PathComp.curDir
  else if seg = ['.', '.'] then PathComp.parentDir
  else PathComp.normal seg

/-- Embedding of Path components parsing on POSIX: a leading separator
makes the path absolute, empty segments vanish, dot segments vanish
except one at the head of a relative path. -/
def parsePathComps (s : List Char) : PosixPath :=
  let absolute := s.head? = some '/'
  let segs := (splitSlash s).filter (fun seg => seg ≠ [])
  let raw := segs.map parseSeg
  let comps :=
    if absolute then raw.filter (fun c => c ≠ PathComp.curDir)
    else
      match raw with
      | PathComp.curDir :: t =>
        PathComp.curDir :: t.filter (fun c => c ≠ PathComp.curDir)
      | _ => raw.filter (fun c => c ≠ PathComp.curDir)
  ⟨absolute, comps⟩

inductive UriParseError where
  | parseError
  deriving DecidableEq, Repr

def stripPrefixChars (pre s : List Char) : Option (List Char) :=
  if pre.isPrefixOf s then some (s.drop pre.length) else none

/-- Embedding of Path::strip_prefix: component-wise prefix removal
yielding a relative remainder. -/
def stripPrefixPath (p root : PosixPath) : Option PosixPath :=
  if p.absolute = root.absolute ∧ root.comps.isPrefixOf p.comps then
    some ⟨false, p.comps.drop root.comps.length⟩
  else none

/-- Embedding of Uri::parse on POSIX: strip the scheme, require the
root separator, keep it (the prefix-component check only fires for
Windows drive prefixes), and strip the workspace root when it is a
prefix. -/
def uriParse (root : PosixPath) (uri : List Char) :
    Except UriParseError PosixPath :=
  match stripPrefixChars ['f', 'i', 'l', 'e', ':', '/', '/'] uri with
  | none => .error .parseError
  | some uri1 =>
    match stripPrefixChars ['/'] uri1 with
    | none => .error .parseError
    | some _ =>
      let path := parsePathComps uri1
      match stripPrefixPath path root with
      | some rel => .ok rel
      | none => .ok path

/-- Validity of a component as Rust itself produces them: a normal
component is nonempty, has no separator, and is not a dot or
double-dot. -/
def wfComp : PathComp → Prop
  | .normal s => s ≠ [] ∧ '/' ∉ s ∧ s ≠ ['.'] ∧ s ≠ ['.', '.']
  | .curDir => True
  | .parentDir => True

instance (c : PathComp) : Decidable (wfComp c) := by
  cases c <;> (unfold wfComp; infer_instance)

theorem renderComp_ne_nil (c : PathComp) (h : wfComp c) :
    renderComp c ≠ [] := by
  cases c with
  | normal s => exact h.1
  | curDir => simp [renderComp]
  | parentDir => simp [renderComp]

theorem renderComp_no_slash (c : PathComp) (h : wfComp c) :
    '/' ∉ renderComp c := by
  cases c with
  | normal s => exact h.2.1
  | curDir => simp [renderComp]
  | parentDir => simp [renderComp]

theorem parseSeg_renderComp (c : PathComp) (h : wfComp c) :
    parseSeg (renderComp c) = c := by
  cases c with
  | normal s =>
    simp [renderComp, parseSeg, h.2.2.1, h.2.2.2]
  | curDir => rfl
  | parentDir => rfl

theorem splitSlash_no_sep (x : List Char) (h : '/' ∉ x) :
    splitSlash x = [x] := by
  induction x with
  | nil => rfl
  | cons c t ih =>
    have hc : c ≠ '/' := fun hx => h (by simp [hx])
    have ht := ih (fun hx => h (by simp [hx]))
    simp [splitSlash, hc, ht]

theorem splitSlash_append (x y : List Char) (h : '/' ∉ x) :
    splitSlash (x ++ '/' :: y) = x :: splitSlash y := by
  induction x with
  | nil => simp [splitSlash]
  | cons c t ih =>
    have hc : c ≠ '/' := fun hx => h (by simp [hx])
    have ht := ih (fun hx => h (by simp [hx]))
    simp [splitSlash, hc, ht]

theorem splitSlash_fmtComps (cs : List PathComp)
    (h : ∀ c ∈ cs, wfComp c) :
    (splitSlash (fmtComps cs)).filter (fun seg => seg ≠ []) =
      cs.map renderComp := by
  induction cs with
  | nil => rfl
  | cons c t ih =>
    have hc := h c (by simp)
    cases t with
    | nil =>
      rw [show fmtComps [c] = renderComp c from rfl,
        splitSlash_no_sep _ (renderComp_no_slash c hc)]
      simp [renderComp_ne_nil c hc]
    | cons c2 t2 =>
      rw [show fmtComps (c :: c2 :: t2) =
        renderComp c ++ '/' :: fmtComps (c2 :: t2) from rfl,
        splitSlash_append _ _ (renderComp_no_slash c hc)]
      rw [List.filter_cons_of_pos (by
        simp [renderComp_ne_nil c hc])]
      rw [ih (fun x hx => h x (by simp [hx]))]
      simp

theorem map_parseSeg_renderComp (cs : List PathComp)
    (h : ∀ c ∈ cs, wfComp c) :
    (cs.map renderComp).map parseSeg = cs := by
  induction cs with
  | nil => rfl
  | cons c t ih =>
    simp only [List.map_cons, parseSeg_renderComp c (h c (by simp)),
      ih (fun x hx => h x (by simp [hx]))]

theorem filter_no_curDir (cs : List PathComp)
    (h : PathComp.curDir ∉ cs) :
    cs.filter (fun c => c ≠ PathComp.curDir) = cs := by
  induction cs with
  | nil => rfl
  | cons c t ih =>
    have hc : c ≠ PathComp.curDir := fun hx => h (by simp [hx])
    rw [List.filter_cons_of_pos (by simp [hc]),
      ih (fun hx => h (by simp [hx]))]

theorem stripPrefixChars_append (pre s : List Char) :
    stripPrefixChars pre (pre ++ s) = some s := by
  simp [stripPrefixChars, isPrefixOf_append_self]

theorem fmtPath_abs_cons (comps : List PathComp) (h : comps ≠ []) :
    fmtPath ⟨true, comps⟩ = '/' :: fmtComps comps := by
  cases comps with
  | nil => exact absurd rfl h
  | cons c t => rfl

theorem uriParse_unfold (root : PosixPath) (rest : List Char) :
    uriParse root (['f', 'i', 'l', 'e', ':', '/', '/', '/'] ++ rest) =
      (match stripPrefixPath (parsePathComps ('/' :: rest)) root with
       | some rel => .ok rel
       | none => .ok (parsePathComps ('/' :: rest))) := by
  simp only [uriParse]
  rw [show (['f', 'i', 'l', 'e', ':', '/', '/', '/'] ++ rest) =
    ['f', 'i', 'l', 'e', ':', '/', '/'] ++ ('/' :: rest) from rfl,
    stripPrefixChars_append]
  have h2 : stripPrefixChars ['/'] ('/' :: rest) = some rest := by
    simpa using stripPrefixChars_append ['/'] rest
  simp [h2]

/-- C3 (amended): on POSIX paths, parsing the displayed URI of the
joined path back against the same root recovers p, for every absolute
root and every relative path p whose components are normal names or
parent-directory steps; a current-directory component in p is
normalized away by the round trip, so such paths are excluded. -/
theorem uri_path_roundtrip (rc pc : List PathComp)
    (hwr : ∀ c ∈ rc, wfComp c) (hwp : ∀ c ∈ pc, wfComp c)
    (hnr : PathComp.curDir ∉ rc) (hnp : PathComp.curDir ∉ pc) :
    uriParse ⟨true, rc⟩ (uriDisplay ⟨true, rc⟩ ⟨false, pc⟩) =
      .ok ⟨false, pc⟩ := by
  have hjoin : joinPath ⟨true, rc⟩ ⟨false, pc⟩ = ⟨true, rc ++ pc⟩ := by
    simp only [joinPath, if_neg (show ¬(false = true) by decide)]
    rw [filter_no_curDir pc hnp]
  by_cases hne : rc ++ pc = []
  · have hrc : rc = [] := (List.append_eq_nil.mp hne).1
    have hpc : pc = [] := (List.append_eq_nil.mp hne).2
    subst hrc
    subst hpc
    rfl
  · rw [uriDisplay, hjoin, fmtPath_abs_cons _ hne, uriParse_unfold]
    have hwall : ∀ c ∈ rc ++ pc, wfComp c := by
      intro c hc
      rcases List.mem_append.mp hc with h | h
      · exact hwr c h
      · exact hwp c h
    have hnall : PathComp.curDir ∉ rc ++ pc := by
      intro hx
      rcases List.mem_append.mp hx with h | h
      · exact hnr h
      · exact hnp h
    have hparse : parsePathComps ('/' :: '/' :: fmtComps (rc ++ pc)) =
        ⟨true, rc ++ pc⟩ := by
      have h1 : splitSlash ('/' :: '/' :: fmtComps (rc ++ pc)) =
          [] :: [] :: splitSlash (fmtComps (rc ++ pc)) := by
        simp [splitSlash]
      have h2 : (([] : List Char) :: ([] : List Char) ::
          splitSlash (fmtComps (rc ++ pc))).filter (fun seg => seg ≠ []) =
          (splitSlash (fmtComps (rc ++ pc))).filter (fun seg => seg ≠ []) := by
        simp
      simp only [parsePathComps, h1, h2, splitSlash_fmtComps _ hwall,
        map_parseSeg_renderComp _ hwall]
      rw [filter_no_curDir _ hnall]
      rfl
    rw [hparse]
    rw [show stripPrefixPath ⟨true, rc ++ pc⟩ ⟨true, rc⟩ =
      some ⟨false, pc⟩ from by
        simp [stripPrefixPath, isPrefixOf_append_self, List.drop_left]]

/-- Witness for C3 at a concrete root directory r and the relative path
with components a and double-dot. -/
theorem uri_path_roundtrip_witness :
    uriParse ⟨true, [PathComp.normal ['r']]⟩
      (uriDisplay ⟨true, [PathComp.normal ['r']]⟩
        ⟨false, [PathComp.normal ['a'], PathComp.parentDir]⟩) =
      .ok ⟨false, [PathComp.normal ['a'], PathComp.parentDir]⟩ :=
  uri_path_roundtrip [PathComp.normal ['r']]
    [PathComp.normal ['a'], PathComp.parentDir]
    (by decide) (by decide) (by decide) (by decide)

/-- Counterexample to C3 as stated: for the relative path consisting of
the single current-directory component, the round trip yields the empty
relative path, which differs from the original path componentwise, as
Rust path equality does. -/
theorem uri_path_roundtrip_counterexample :
    uriParse ⟨true, [PathComp.normal ['r']]⟩
      (uriDisplay ⟨true, [PathComp.normal ['r']]⟩
        ⟨false, [PathComp.curDir]⟩) =
      .ok ⟨false, []⟩ ∧
    (⟨false, []⟩ : PosixPath) ≠ ⟨false, [PathComp.curDir]⟩ := by
  constructor
  · decide
  · decide

end Pepper
